import Mathlib

set_option maxRecDepth 10000

/-!
Verification of the `raw-str` byte-string core (`src/raw_string_imp.rs`).

Bytes are modelled as `List Nat` (each element a byte value `< 0x100` where it
matters; the UTF-8 tables below only accept bytes in range).  Rust's `String`
is modelled by its UTF-8 byte content, so `String::from_utf8` returns the very
bytes it was given on success, exactly as the Rust value does.  The UTF-8
validation and lossy-substitution routines mirror `core::str`'s
`run_utf8_validation` / `Utf8Chunks` (the functions `String::from_utf8` and
`String::from_utf8_lossy` delegate to), including `Utf8Error::valid_up_to`
and the one-replacement-character-per-maximal-subpart substitution policy.
-/

/-- A Unicode scalar value: a code point below 0x110000 outside the
surrogate range. -/
def IsScalar (c : Nat) : Prop := c < 0x110000 ∧ ¬(0xD800 ≤ c ∧ c ≤ 0xDFFF)

instance (c : Nat) : Decidable (IsScalar c) := by
  unfold IsScalar; infer_instance

/-- Every element is a Unicode scalar value. -/
def AllScalar (cs : List Nat) : Prop := ∀ c ∈ cs, IsScalar c

instance (cs : List Nat) : Decidable (AllScalar cs) := by
  unfold AllScalar; infer_instance

/-- UTF-8 encoding of one scalar value (the standard variable-width encoding). -/
def utf8EncodeChar (c : Nat) : List Nat :=
  if c < 0x80 then [c]
  else if c < 0x800 then [0xC0 + c / 64, 0x80 + c % 64]
  else if c < 0x10000 then [0xE0 + c / 4096, 0x80 + c / 64 % 64, 0x80 + c % 64]
  else [0xF0 + c / 262144, 0x80 + c / 4096 % 64, 0x80 + c / 64 % 64, 0x80 + c % 64]

/-- UTF-8 encoding of a sequence of scalar values (a Rust `str`'s bytes). -/
def utf8EncodeList : List Nat → List Nat
  | [] => []
  | c :: cs => utf8EncodeChar c ++ utf8EncodeList cs

/-- `b` is valid UTF-8: it is the encoding of some sequence of scalar values. -/
def Utf8Valid (b : List Nat) : Prop :=
  ∃ cs, AllScalar cs ∧ utf8EncodeList cs = b

/-- A UTF-8 continuation byte (`0x80..=0xBF`). -/
def IsCont (b : Nat) : Prop := 0x80 ≤ b ∧ b < 0xC0

instance (b : Nat) : Decidable (IsCont b) := by
  unfold IsCont; infer_instance

/-- Decode one character from byte `b0` followed by `rest`, mirroring
`core::str::validations::run_utf8_validation`'s per-character tables.
`Sum.inl (c, extra)`: scalar value `c`, consuming `1 + extra` bytes.
`Sum.inr extra`: ill-formed; `1 + extra` bytes are the maximal subpart that
lossy decoding replaces by one replacement character (matching the
`error_len` / unexpected-end cases of `Utf8Error`). -/
def utf8DecodeFirst (b0 : Nat) (rest : List Nat) : (Nat × Nat) ⊕ Nat :=
  if b0 < 0x80 then .inl (b0, 0)
  else if b0 < 0xC2 then .inr 0
  else if b0 < 0xE0 then
    match rest with
    | [] => .inr 0
    | b1 :: _ =>
      if IsCont b1 then .inl ((b0 - 0xC0) * 64 + (b1 - 0x80), 1) else .inr 0
  else if b0 < 0xF0 then
    match rest with
    | [] => .inr 0
    | b1 :: rest1 =>
      if (b0 = 0xE0 ∧ 0xA0 ≤ b1 ∧ b1 < 0xC0) ∨
         (0xE1 ≤ b0 ∧ b0 ≤ 0xEC ∧ IsCont b1) ∨
         (b0 = 0xED ∧ 0x80 ≤ b1 ∧ b1 < 0xA0) ∨
         (0xEE ≤ b0 ∧ IsCont b1) then
        match rest1 with
        | [] => .inr 1
        | b2 :: _ =>
          if IsCont b2 then
            .inl ((b0 - 0xE0) * 4096 + (b1 - 0x80) * 64 + (b2 - 0x80), 2)
          else .inr 1
      else .inr 0
  else if b0 < 0xF5 then
    match rest with
    | [] => .inr 0
    | b1 :: rest1 =>
      if (b0 = 0xF0 ∧ 0x90 ≤ b1 ∧ b1 < 0xC0) ∨
         (0xF1 ≤ b0 ∧ b0 ≤ 0xF3 ∧ IsCont b1) ∨
         (b0 = 0xF4 ∧ 0x80 ≤ b1 ∧ b1 < 0x90) then
        match rest1 with
        | [] => .inr 1
        | b2 :: rest2 =>
          if IsCont b2 then
            match rest2 with
            | [] => .inr 2
            | b3 :: _ =>
              if IsCont b3 then
                .inl ((b0 - 0xF0) * 262144 + (b1 - 0x80) * 4096 +
                      (b2 - 0x80) * 64 + (b3 - 0x80), 3)
              else .inr 2
          else .inr 1
      else .inr 0
  else .inr 0

/-- Whole-input UTF-8 decoding, as `run_utf8_validation` scans: either all
scalar values, or the byte index at which the first ill-formed sequence
starts (Rust's `Utf8Error::valid_up_to`).  `fuel` bounds the recursion and is
always instantiated with the input length, which suffices because every step
consumes at least one byte. -/
def utf8DecodeAux : Nat → List Nat → Nat → Except Nat (List Nat)
  | _, [], _ => .ok []
  | 0, _ :: _, i => .error i
  | fuel + 1, b0 :: rest, i =>
    match utf8DecodeFirst b0 rest with
    | .inl (c, extra) =>
      match utf8DecodeAux fuel (rest.drop extra) (i + 1 + extra) with
      | .ok cs => .ok (c :: cs)
      | .error e => .error e
    | .inr _ => .error i

/-- Decode a whole byte sequence from offset 0. -/
def utf8Decode (b : List Nat) : Except Nat (List Nat) :=
  utf8DecodeAux b.length b 0

/-- Lossy UTF-8 decoding, mirroring `String::from_utf8_lossy` via
`Utf8Chunks`: each maximal subpart of an ill-formed subsequence is replaced
by one U+FFFD replacement character. -/
def utf8LossyAux : Nat → List Nat → List Nat
  | _, [] => []
  | 0, _ :: _ => []
  | fuel + 1, b0 :: rest =>
    match utf8DecodeFirst b0 rest with
    | .inl (c, extra) => c :: utf8LossyAux fuel (rest.drop extra)
    | .inr extra => 0xFFFD :: utf8LossyAux fuel (rest.drop extra)

/-- Lossy-decode a whole byte sequence. -/
def utf8LossyDecode (b : List Nat) : List Nat :=
  utf8LossyAux b.length b

instance {ε α : Type} [DecidableEq ε] [DecidableEq α] : DecidableEq (Except ε α) := fun a b =>
  match a, b with
  | .ok x, .ok y => decidable_of_iff (x = y) (by simp)
  | .ok _, .error _ => isFalse (by simp)
  | .error _, .ok _ => isFalse (by simp)
  | .error x, .error y => decidable_of_iff (x = y) (by simp)

/-- Model of std's `FromUtf8Error`: it carries the original bytes
(`into_bytes`) and the index of the first invalid byte
(`utf8_error().valid_up_to()`). -/
structure FromUtf8Error where
  bytes : List Nat
  valid_up_to : Nat
deriving DecidableEq

/-- Model of `String::from_utf8`: on success the `String` takes the very
bytes of the vector; on failure the error carries the bytes back. -/
def stringFromUtf8 (v : List Nat) : Except FromUtf8Error (List Nat) :=
  match utf8Decode v with
  | .ok _ => .ok v
  | .error i => .error ⟨v, i⟩

/-- Model of `Cow<'_, str>`: a borrowed or owned string, identified by its
UTF-8 byte content. -/
inductive Cow where
  | borrowed : List Nat → Cow
  | owned : List Nat → Cow
deriving DecidableEq

/-- Model of `String::from_utf8_lossy`: borrows the input unchanged when it
is entirely valid, otherwise owns a fresh string in which every maximal
subpart of an ill-formed subsequence is replaced by U+FFFD. -/
def stringFromUtf8Lossy (v : List Nat) : Cow :=
  match utf8Decode v with
  | .ok _ => .borrowed v
  | .error _ => .owned (utf8EncodeList (utf8LossyDecode v))

/-- Model of `String::from_utf8_unchecked`: the bytes are rewrapped
unchanged (the validity contract lives at the `unsafe` call site). -/
def stringFromUtf8Unchecked (v : List Nat) : List Nat := v

/-- The borrowed byte-string view `crate::RawStr` (a wrapper over a byte
slice).  Its implementation file is not part of the excerpt; operations on
it are modelled from the spec where used. -/
structure RawStr where
  bytes : List Nat
deriving DecidableEq

/-- `RawStr::from_bytes`: wraps a byte slice. -/
def RawStr.from_bytes (b : List Nat) : RawStr := ⟨b⟩

/-- Modelled from the spec: `RawStr::is_utf8` is missing from the source
excerpt; the spec says `is_valid_text() -> bool` "returns whether the full
byte range decodes as one complete, valid sequence under the target text
encoding, with no trailing partial sequence". -/
def RawStr.is_utf8 (s : RawStr) : Bool :=
  match utf8Decode s.bytes with
  | .ok _ => true
  | .error _ => false

/-- `pub struct RawString(pub Vec<u8>)`. -/
structure RawString where
  bytes : List Nat
deriving DecidableEq

/-- `RawString::from_bytes`: wraps the given bytes. -/
def RawString.from_bytes (bytes : List Nat) : RawString := ⟨bytes⟩

/-- `RawString::from`: `Self::from_bytes(bytes.into())`, with the
`Into<Vec<u8>>` source already presented as its bytes. -/
def RawString.«from» (bytes : List Nat) : RawString :=
  RawString.from_bytes bytes

/-- `RawString::new`: `Self::from(Vec::new())`. -/
def RawString.new : RawString := RawString.«from» []

/-- `RawString::from` applied to a strict text string source: a `String`'s
`Into<Vec<u8>>` yields its UTF-8 bytes, which in this model are the string
itself. -/
def RawString.fromString (s : List Nat) : RawString := RawString.«from» s

/-- `RawString::as_ref`: reinterprets the inner bytes as a `RawStr`. -/
def RawString.as_ref (s : RawString) : RawStr := RawStr.from_bytes s.bytes

/-- `RawString::to_utf8_checked`: `String::from_utf8(self.0)`. -/
def RawString.to_utf8_checked (s : RawString) : Except FromUtf8Error (List Nat) :=
  stringFromUtf8 s.bytes

/-- `unsafe fn RawString::to_utf8_unchecked`:
`unsafe { String::from_utf8_unchecked(self.0) }`.  The `unsafe` marker is
modelled by the explicit validity precondition `_h`, which every caller must
discharge; the function is not callable without it. -/
def RawString.to_utf8_unchecked (s : RawString) (_h : Utf8Valid s.bytes) : List Nat :=
  stringFromUtf8Unchecked s.bytes

/-- `RawString::to_utf8_lossy`: `String::from_utf8_lossy(&self.0)`. -/
def RawString.to_utf8_lossy (s : RawString) : Cow :=
  stringFromUtf8Lossy s.bytes

/-- `RawString::is_utf8`: `self.as_ref().is_utf8()`. -/
def RawString.is_utf8 (s : RawString) : Bool :=
  s.as_ref.is_utf8

/-- `impl TryFrom<RawString> for String`: `String::from_utf8(this.0)`. -/
def stringTryFrom (this : RawString) : Except FromUtf8Error (List Nat) :=
  stringFromUtf8 this.bytes

/-- The derived `PartialEq` on `RawString`: field-wise, i.e. `Vec<u8>`
equality. -/
def RawString.beq (a b : RawString) : Bool := a.bytes == b.bytes

/-- `u8`'s `Ord`: unsigned comparison. -/
def byteCompare (a b : Nat) : Ordering :=
  if a < b then .lt else if a = b then .eq else .gt

/-- `Vec<u8>` / slice `Ord`: lexicographic comparison with unsigned bytes. -/
def bytesCompare : List Nat → List Nat → Ordering
  | [], [] => .eq
  | [], _ :: _ => .lt
  | _ :: _, [] => .gt
  | a :: as', b :: bs' =>
    match byteCompare a b with
    | .eq => bytesCompare as' bs'
    | .lt => .lt
    | .gt => .gt

/-- The derived `Ord` on `RawString`: compares the single `Vec<u8>` field. -/
def RawString.cmp (a b : RawString) : Ordering :=
  bytesCompare a.bytes b.bytes

/-- Lower-case hex digit, for the escape rendering. -/
def hexDigit (n : Nat) : Nat := if n < 10 then 0x30 + n else 0x57 + n

/-- Modelled from the spec: one scalar of the Debug rendering — quotes and
backslashes are backslash-escaped, control characters get a hex escape,
everything else is rendered verbatim ("quoted, with standard escape
sequences for control characters and quotes"). -/
def escapeScalar (c : Nat) : List Nat :=
  if c = 0x22 ∨ c = 0x5C then [0x5C, c]
  else if c < 0x20 then [0x5C, 0x78, hexDigit (c / 16), hexDigit (c % 16)]
  else [c]

/-- Escape a scalar sequence for the Debug rendering. -/
def escapeList : List Nat → List Nat
  | [] => []
  | c :: cs => escapeScalar c ++ escapeList cs

/-- Modelled from the spec: `RawStr`'s `fmt::Debug` impl is missing from the
source excerpt; the spec requires a quoted, escaped, deterministic and
non-panicking rendering that substitutes for invalid byte runs. -/
def RawStr.debugText (s : RawStr) : List Nat :=
  0x22 :: (escapeList (utf8LossyDecode s.bytes) ++ [0x22])

/-- Modelled from the spec: `RawStr`'s `fmt::Display` impl is missing from
the source excerpt; the spec says "the display form of invalid content uses
the standard replacement-character substitution for undecodable byte runs". -/
def RawStr.displayText (s : RawStr) : List Nat :=
  utf8LossyDecode s.bytes

/-- `impl fmt::Debug for RawString`: `self.as_ref().fmt(f)`. -/
def RawString.debugText (s : RawString) : List Nat := s.as_ref.debugText

/-- `impl fmt::Display for RawString`: `self.as_ref().fmt(f)`. -/
def RawString.displayText (s : RawString) : List Nat := s.as_ref.displayText

/-- The translation of the `&self` method call `is_utf8`: its result paired
with the receiver after the call.  The body only reads `self.0` (the method
takes `&self` and mutates nothing), so the translation carries the receiver
through unchanged. -/
def RawString.is_utf8_call (s : RawString) : Bool × RawString :=
  (s.is_utf8, s)

/-- The translation of the `&self` method call `to_utf8_lossy`, as for
`is_utf8_call`. -/
def RawString.to_utf8_lossy_call (s : RawString) : Cow × RawString :=
  (s.to_utf8_lossy, s)

/-- Soundness of one decoding step: a decoded scalar is a scalar value whose
UTF-8 encoding is exactly the consumed bytes. -/
theorem utf8DecodeFirst_inl (b0 : Nat) (rest : List Nat) (c extra : Nat)
    (h : utf8DecodeFirst b0 rest = .inl (c, extra)) :
    IsScalar c ∧ utf8EncodeChar c = b0 :: rest.take extra ∧
      (rest.take extra).length = extra := by
  rcases rest with _ | ⟨b1, rest1⟩
  on_goal 2 => rcases rest1 with _ | ⟨b2, rest2⟩
  on_goal 3 => rcases rest2 with _ | ⟨b3, rest3⟩
  all_goals simp only [utf8DecodeFirst] at h
  all_goals split_ifs at h
  all_goals simp only [Sum.inl.injEq, Prod.mk.injEq, reduceCtorEq] at h
  all_goals obtain ⟨rfl, rfl⟩ := h
  all_goals simp only [IsCont] at *
  all_goals refine ⟨⟨by omega, by omega⟩, ?_, by simp⟩
  all_goals
    simp only [utf8EncodeChar]
    split_ifs <;>
      first
        | (exfalso; omega)
        | (simp only [List.take_succ_cons, List.take_zero, List.cons.injEq,
                      and_true] <;> omega)

set_option maxHeartbeats 1600000 in
/-- Completeness of one decoding step: decoding starts anywhere a scalar's
encoding starts, consumes exactly that encoding and returns that scalar. -/
theorem utf8DecodeFirst_encode (c : Nat) (h : IsScalar c) (tail : List Nat) :
    ∃ b0 tl, utf8EncodeChar c = b0 :: tl ∧
      utf8DecodeFirst b0 (tl ++ tail) = .inl (c, tl.length) := by
  obtain ⟨hlt, hsur⟩ := h
  by_cases h1 : c < 0x80
  · refine ⟨c, [], by simp [utf8EncodeChar, if_pos h1], ?_⟩
    simp only [List.nil_append, List.length_nil, utf8DecodeFirst, if_pos h1]
  by_cases h2 : c < 0x800
  · refine ⟨0xC0 + c / 64, [0x80 + c % 64], ?_, ?_⟩
    · simp only [utf8EncodeChar]
      rw [if_neg h1, if_pos h2]
    · simp only [List.cons_append, List.nil_append, List.length_cons,
        List.length_nil, utf8DecodeFirst, IsCont]
      split_ifs <;>
        first
          | (exfalso; omega)
          | (simp only [Sum.inl.injEq, Prod.mk.injEq, and_true, true_and] <;>
             omega)
  by_cases h3 : c < 0x10000
  · refine ⟨0xE0 + c / 4096, [0x80 + c / 64 % 64, 0x80 + c % 64], ?_, ?_⟩
    · simp only [utf8EncodeChar]
      rw [if_neg h1, if_neg h2, if_pos h3]
    · simp only [List.cons_append, List.nil_append, List.length_cons,
        List.length_nil, utf8DecodeFirst, IsCont]
      split_ifs <;>
        first
          | (exfalso; omega)
          | (simp only [Sum.inl.injEq, Prod.mk.injEq, and_true, true_and] <;>
             omega)
  · refine ⟨0xF0 + c / 262144,
      [0x80 + c / 4096 % 64, 0x80 + c / 64 % 64, 0x80 + c % 64], ?_, ?_⟩
    · simp only [utf8EncodeChar]
      rw [if_neg h1, if_neg h2, if_neg h3]
    · simp only [List.cons_append, List.nil_append, List.length_cons,
        List.length_nil, utf8DecodeFirst, IsCont]
      split_ifs <;>
        first
          | (exfalso; omega)
          | (simp only [Sum.inl.injEq, Prod.mk.injEq, and_true, true_and] <;>
             omega)

/-- Soundness of whole-input decoding: a decoded sequence is all scalar
values and re-encodes to exactly the input bytes. -/
theorem utf8DecodeAux_ok (fuel : Nat) :
    ∀ l i cs, utf8DecodeAux fuel l i = .ok cs →
      AllScalar cs ∧ utf8EncodeList cs = l := by
  induction fuel with
  | zero =>
    intro l i cs h
    cases l with
    | nil =>
      simp only [utf8DecodeAux, Except.ok.injEq] at h
      subst h
      exact ⟨fun c hc => absurd hc (List.not_mem_nil c), rfl⟩
    | cons b0 rest => simp only [utf8DecodeAux, reduceCtorEq] at h
  | succ fuel ih =>
    intro l i cs h
    cases l with
    | nil =>
      simp only [utf8DecodeAux, Except.ok.injEq] at h
      subst h
      exact ⟨fun c hc => absurd hc (List.not_mem_nil c), rfl⟩
    | cons b0 rest =>
      simp only [utf8DecodeAux] at h
      cases hd : utf8DecodeFirst b0 rest with
      | inl p =>
        obtain ⟨c, extra⟩ := p
        simp only [hd] at h
        cases hrec : utf8DecodeAux fuel (rest.drop extra) (i + 1 + extra) with
        | ok cs' =>
          simp only [hrec, Except.ok.injEq] at h
          subst h
          obtain ⟨hsc, hrest⟩ := ih _ _ _ hrec
          obtain ⟨hs, henc, _⟩ := utf8DecodeFirst_inl b0 rest c extra hd
          refine ⟨?_, ?_⟩
          · intro x hx
            rcases List.mem_cons.mp hx with rfl | hx
            · exact hs
            · exact hsc x hx
          · rw [show utf8EncodeList (c :: cs') =
                  utf8EncodeChar c ++ utf8EncodeList cs' from rfl,
              henc, hrest, List.cons_append, List.take_append_drop]
        | error e => simp only [hrec, reduceCtorEq] at h
      | inr k => simp only [hd, reduceCtorEq] at h

/-- An error index reported by the decoder is at least the starting index. -/
theorem utf8DecodeAux_error_ge (fuel : Nat) :
    ∀ l i e, utf8DecodeAux fuel l i = .error e → i ≤ e := by
  induction fuel with
  | zero =>
    intro l i e h
    cases l with
    | nil => simp only [utf8DecodeAux, reduceCtorEq] at h
    | cons b0 rest =>
      simp only [utf8DecodeAux, Except.error.injEq] at h
      omega
  | succ fuel ih =>
    intro l i e h
    cases l with
    | nil => simp only [utf8DecodeAux, reduceCtorEq] at h
    | cons b0 rest =>
      simp only [utf8DecodeAux] at h
      cases hd : utf8DecodeFirst b0 rest with
      | inl p =>
        obtain ⟨c, extra⟩ := p
        simp only [hd] at h
        cases hrec : utf8DecodeAux fuel (rest.drop extra) (i + 1 + extra) with
        | ok cs' => simp only [hrec, reduceCtorEq] at h
        | error e' =>
          simp only [hrec, Except.error.injEq] at h
          subst h
          have := ih _ _ _ hrec
          omega
      | inr k =>
        simp only [hd, Except.error.injEq] at h
        omega

/-- Completeness of whole-input decoding: the encoding of a scalar sequence
decodes back to exactly that sequence. -/
theorem utf8DecodeAux_encode_ok (cs : List Nat) :
    ∀ fuel i, AllScalar cs → (utf8EncodeList cs).length ≤ fuel →
      utf8DecodeAux fuel (utf8EncodeList cs) i = .ok cs := by
  induction cs with
  | nil =>
    intro fuel i _ _
    rw [show utf8EncodeList [] = [] from rfl]
    cases fuel <;> rfl
  | cons c cs ih =>
    intro fuel i hsc hlen
    have hc : IsScalar c := hsc c (List.mem_cons_self c cs)
    have hcs : AllScalar cs := fun x hx => hsc x (List.mem_cons_of_mem c hx)
    obtain ⟨b0, tl, henc, hdec⟩ := utf8DecodeFirst_encode c hc (utf8EncodeList cs)
    have hlist : utf8EncodeList (c :: cs) = b0 :: (tl ++ utf8EncodeList cs) := by
      rw [show utf8EncodeList (c :: cs) =
            utf8EncodeChar c ++ utf8EncodeList cs from rfl,
        henc, List.cons_append]
    rw [hlist] at hlen ⊢
    cases fuel with
    | zero => simp only [List.length_cons] at hlen; omega
    | succ fuel =>
      simp only [utf8DecodeAux, hdec, List.drop_left]
      rw [ih fuel (i + 1 + tl.length) hcs (by
        simp only [List.length_cons, List.length_append] at hlen
        omega)]

/-- Decoding the encoding of a scalar sequence followed by anything can only
report an error at or beyond the end of that encoding. -/
theorem utf8DecodeAux_encode_error_ge (cs : List Nat) :
    ∀ suffix fuel i e, AllScalar cs →
      (utf8EncodeList cs ++ suffix).length ≤ fuel →
      utf8DecodeAux fuel (utf8EncodeList cs ++ suffix) i = .error e →
      i + (utf8EncodeList cs).length ≤ e := by
  induction cs with
  | nil =>
    intro suffix fuel i e _ _ h
    rw [show utf8EncodeList [] = [] from rfl] at h ⊢
    simp only [List.nil_append] at h
    have := utf8DecodeAux_error_ge fuel suffix i e h
    simp only [List.length_nil]
    omega
  | cons c cs ih =>
    intro suffix fuel i e hsc hlen h
    have hc : IsScalar c := hsc c (List.mem_cons_self c cs)
    have hcs : AllScalar cs := fun x hx => hsc x (List.mem_cons_of_mem c hx)
    obtain ⟨b0, tl, henc, hdec⟩ :=
      utf8DecodeFirst_encode c hc (utf8EncodeList cs ++ suffix)
    have hlist : utf8EncodeList (c :: cs) ++ suffix
        = b0 :: (tl ++ (utf8EncodeList cs ++ suffix)) := by
      rw [show utf8EncodeList (c :: cs) =
            utf8EncodeChar c ++ utf8EncodeList cs from rfl,
        henc]
      simp [List.append_assoc]
    rw [hlist] at h hlen
    cases fuel with
    | zero => simp only [List.length_cons] at hlen; omega
    | succ fuel =>
      simp only [utf8DecodeAux, hdec, List.drop_left] at h
      cases hrec : utf8DecodeAux fuel (utf8EncodeList cs ++ suffix)
          (i + 1 + tl.length) with
      | ok cs' => simp only [hrec, reduceCtorEq] at h
      | error e' =>
        simp only [hrec, Except.error.injEq] at h
        subst h
        have hge := ih suffix fuel (i + 1 + tl.length) e' hcs (by
          simp only [List.length_cons, List.length_append] at hlen ⊢
          omega) hrec
        have hclen : (utf8EncodeChar c).length = tl.length + 1 := by
          rw [henc]; rfl
        rw [show utf8EncodeList (c :: cs) =
              utf8EncodeChar c ++ utf8EncodeList cs from rfl]
        simp only [List.length_append, hclen]
        omega

/-- On error, the decoder has consumed a valid prefix: the reported index is
reached from the start, lies inside the input, and cuts off a valid-UTF-8
prefix. -/
theorem utf8DecodeAux_error_take (fuel : Nat) :
    ∀ l i e, l.length ≤ fuel → utf8DecodeAux fuel l i = .error e →
      ∃ d, e = i + d ∧ d < l.length ∧ Utf8Valid (l.take d) := by
  induction fuel with
  | zero =>
    intro l i e hlen h
    cases l with
    | nil => simp only [utf8DecodeAux, reduceCtorEq] at h
    | cons b0 rest => simp only [List.length_cons] at hlen; omega
  | succ fuel ih =>
    intro l i e hlen h
    cases l with
    | nil => simp only [utf8DecodeAux, reduceCtorEq] at h
    | cons b0 rest =>
      simp only [utf8DecodeAux] at h
      cases hd : utf8DecodeFirst b0 rest with
      | inl p =>
        obtain ⟨c, extra⟩ := p
        simp only [hd] at h
        cases hrec : utf8DecodeAux fuel (rest.drop extra) (i + 1 + extra) with
        | ok cs' => simp only [hrec, reduceCtorEq] at h
        | error e' =>
          simp only [hrec, Except.error.injEq] at h
          subst h
          obtain ⟨hs, henc, htk⟩ := utf8DecodeFirst_inl b0 rest c extra hd
          have hex : extra ≤ rest.length := by
            rw [List.length_take] at htk
            omega
          obtain ⟨d', rfl, hdlt, hval⟩ := ih _ _ _ (by
            simp only [List.length_drop]
            simp only [List.length_cons] at hlen
            omega) hrec
          simp only [List.length_drop] at hdlt
          refine ⟨1 + extra + d', by omega, by
            simp only [List.length_cons]; omega, ?_⟩
          obtain ⟨cs', hcs', hval'⟩ := hval
          refine ⟨c :: cs', ?_, ?_⟩
          · intro x hx
            rcases List.mem_cons.mp hx with rfl | hx
            · exact hs
            · exact hcs' x hx
          · rw [show utf8EncodeList (c :: cs') =
                  utf8EncodeChar c ++ utf8EncodeList cs' from rfl,
              henc, hval',
              show (1 : Nat) + extra + d' = (extra + d') + 1 from by omega,
              List.take_succ_cons, List.take_add, List.cons_append]
      | inr k =>
        simp only [hd, Except.error.injEq] at h
        subst h
        exact ⟨0, by omega, by simp, [],
          fun c hc => absurd hc (List.not_mem_nil c), rfl⟩

/-- Whole-input decoding succeeds exactly on valid UTF-8. -/
theorem utf8Decode_ok_iff (b : List Nat) :
    (∃ cs, utf8Decode b = .ok cs) ↔ Utf8Valid b := by
  constructor
  · rintro ⟨cs, h⟩
    obtain ⟨hsc, henc⟩ := utf8DecodeAux_ok b.length b 0 cs h
    exact ⟨cs, hsc, henc⟩
  · rintro ⟨cs, hsc, rfl⟩
    exact ⟨cs, utf8DecodeAux_encode_ok cs _ 0 hsc le_rfl⟩

/-- The error index is the length of the longest valid-UTF-8 prefix: that
prefix is valid and no strictly longer prefix is. -/
theorem utf8Decode_error_spec (b : List Nat) (e : Nat)
    (h : utf8Decode b = .error e) :
    e < b.length ∧ Utf8Valid (b.take e) ∧
      ∀ m, e < m → ¬ Utf8Valid (b.take m) := by
  obtain ⟨d, rfl, hdlt, hval⟩ :=
    utf8DecodeAux_error_take b.length b 0 e le_rfl h
  refine ⟨by omega, by rw [Nat.zero_add]; exact hval, ?_⟩
  intro m hm hcontra
  obtain ⟨cs, hsc, henc⟩ := hcontra
  have hb : b = utf8EncodeList cs ++ b.drop m := by
    rw [henc, List.take_append_drop]
  have hge := utf8DecodeAux_encode_error_ge cs (b.drop m) b.length 0 (0 + d)
    hsc (by rw [← hb]) (by rw [← hb]; exact h)
  have hlen3 : (utf8EncodeList cs).length = min m b.length := by
    rw [henc, List.length_take]
  omega

/-- The validity check is `true` exactly on valid UTF-8. -/
theorem RawStr_is_utf8_iff (s : RawStr) :
    s.is_utf8 = true ↔ Utf8Valid s.bytes := by
  constructor
  · intro ht
    unfold RawStr.is_utf8 at ht
    cases h : utf8Decode s.bytes with
    | ok cs => exact (utf8Decode_ok_iff s.bytes).mp ⟨cs, h⟩
    | error e => rw [h] at ht; exact absurd ht (by simp)
  · intro hv
    obtain ⟨cs, hok⟩ := (utf8Decode_ok_iff s.bytes).mpr hv
    unfold RawStr.is_utf8
    rw [hok]

/-- On fully valid input, lossy decoding agrees with checked decoding. -/
theorem utf8LossyAux_of_ok (fuel : Nat) :
    ∀ l i cs, utf8DecodeAux fuel l i = .ok cs → utf8LossyAux fuel l = cs := by
  induction fuel with
  | zero =>
    intro l i cs h
    cases l with
    | nil =>
      simp only [utf8DecodeAux, Except.ok.injEq] at h
      subst h; rfl
    | cons b0 rest => simp only [utf8DecodeAux, reduceCtorEq] at h
  | succ fuel ih =>
    intro l i cs h
    cases l with
    | nil =>
      simp only [utf8DecodeAux, Except.ok.injEq] at h
      subst h; rfl
    | cons b0 rest =>
      simp only [utf8DecodeAux] at h
      cases hd : utf8DecodeFirst b0 rest with
      | inl p =>
        obtain ⟨c, extra⟩ := p
        simp only [hd] at h
        cases hrec : utf8DecodeAux fuel (rest.drop extra) (i + 1 + extra) with
        | ok cs' =>
          simp only [hrec, Except.ok.injEq] at h
          subst h
          simp only [utf8LossyAux, hd]
          rw [ih _ _ _ hrec]
        | error e => simp only [hrec, reduceCtorEq] at h
      | inr k => simp only [hd, reduceCtorEq] at h

/-- Lossy decoding yields only scalar values (valid text and replacement
characters). -/
theorem utf8LossyAux_scalar (fuel : Nat) :
    ∀ l, AllScalar (utf8LossyAux fuel l) := by
  induction fuel with
  | zero =>
    intro l
    cases l <;> exact fun c hc => absurd hc (List.not_mem_nil c)
  | succ fuel ih =>
    intro l
    cases l with
    | nil => exact fun c hc => absurd hc (List.not_mem_nil c)
    | cons b0 rest =>
      simp only [utf8LossyAux]
      cases hd : utf8DecodeFirst b0 rest with
      | inl p =>
        obtain ⟨c, extra⟩ := p
        simp only [hd]
        intro x hx
        rcases List.mem_cons.mp hx with rfl | hx
        · exact (utf8DecodeFirst_inl b0 rest x extra hd).1
        · exact ih (rest.drop extra) x hx
      | inr k =>
        simp only [hd]
        intro x hx
        rcases List.mem_cons.mp hx with rfl | hx
        · exact ⟨by omega, by omega⟩
        · exact ih (rest.drop k) x hx

/-- Lossy decoding of non-empty input is non-empty. -/
theorem utf8LossyAux_ne_nil (fuel b0 : Nat) (rest : List Nat) :
    utf8LossyAux (fuel + 1) (b0 :: rest) ≠ [] := by
  simp only [utf8LossyAux]
  cases hd : utf8DecodeFirst b0 rest with
  | inl p => obtain ⟨c, extra⟩ := p; simp [hd]
  | inr k => simp [hd]

/-- A byte `0x80..` alone at the end of input never starts a character. -/
theorem utf8DecodeFirst_hi_nil (x : Nat) (h1 : 0x80 ≤ x) :
    utf8DecodeFirst x [] = .inr 0 := by
  simp only [utf8DecodeFirst]
  split_ifs <;> first | rfl | (exfalso; omega)

/-- A single byte in `0x80..=0xFF` lossy-decodes to one replacement
character. -/
theorem utf8LossyDecode_single (x : Nat) (h1 : 0x80 ≤ x) :
    utf8LossyDecode [x] = [0xFFFD] := by
  show utf8LossyAux 1 [x] = [0xFFFD]
  simp [utf8LossyAux, utf8DecodeFirst_hi_nil x h1]

/-- Unsigned byte comparison, `lt` case. -/
theorem byteCompare_lt (a b : Nat) (h : a < b) : byteCompare a b = .lt := by
  unfold byteCompare
  rw [if_pos h]

/-- Unsigned byte comparison, `eq` case. -/
theorem byteCompare_eq (a b : Nat) (h : a = b) : byteCompare a b = .eq := by
  unfold byteCompare
  rw [if_neg (by omega), if_pos h]

/-- Unsigned byte comparison, `gt` case. -/
theorem byteCompare_gt (a b : Nat) (h : b < a) : byteCompare a b = .gt := by
  unfold byteCompare
  rw [if_neg (by omega), if_neg (by omega)]

/-- Lexicographic byte comparison returns `eq` exactly on equal lists. -/
theorem bytesCompare_eq_iff : ∀ x y : List Nat,
    bytesCompare x y = .eq ↔ x = y := by
  intro x
  induction x with
  | nil =>
    intro y
    cases y with
    | nil => simp [bytesCompare]
    | cons b bs => simp [bytesCompare]
  | cons a as ih =>
    intro y
    cases y with
    | nil => simp [bytesCompare]
    | cons b bs =>
      rcases Nat.lt_trichotomy a b with h | h | h
      · have he : bytesCompare (a :: as) (b :: bs) = .lt := by
          simp only [bytesCompare, byteCompare_lt a b h]
        rw [he]
        constructor
        · intro hc; exact absurd hc (by decide)
        · intro hc
          injection hc with h1 h2
          omega
      · subst h
        have he : bytesCompare (a :: as) (a :: bs) = bytesCompare as bs := by
          simp only [bytesCompare, byteCompare_eq a a rfl]
        rw [he, ih bs]
        simp
      · have he : bytesCompare (a :: as) (b :: bs) = .gt := by
          simp only [bytesCompare, byteCompare_gt a b h]
        rw [he]
        constructor
        · intro hc; exact absurd hc (by decide)
        · intro hc
          injection hc with h1 h2
          omega

/-- Lexicographic byte comparison returns `lt` exactly on the lexicographic
strict order of Mathlib. -/
theorem bytesCompare_lt_iff : ∀ x y : List Nat,
    bytesCompare x y = .lt ↔ List.Lex (· < ·) x y := by
  intro x
  induction x with
  | nil =>
    intro y
    cases y with
    | nil =>
      rw [show bytesCompare [] [] = .eq from rfl]
      constructor
      · intro hc; exact absurd hc (by decide)
      · intro hc; cases hc
    | cons b bs =>
      rw [show bytesCompare [] (b :: bs) = .lt from rfl]
      exact ⟨fun _ => List.Lex.nil, fun _ => rfl⟩
  | cons a as ih =>
    intro y
    cases y with
    | nil =>
      rw [show bytesCompare (a :: as) [] = .gt from rfl]
      constructor
      · intro hc; exact absurd hc (by decide)
      · intro hc; cases hc
    | cons b bs =>
      rcases Nat.lt_trichotomy a b with h | h | h
      · have he : bytesCompare (a :: as) (b :: bs) = .lt := by
          simp only [bytesCompare, byteCompare_lt a b h]
        rw [he]
        exact ⟨fun _ => List.Lex.rel h, fun _ => rfl⟩
      · subst h
        have he : bytesCompare (a :: as) (a :: bs) = bytesCompare as bs := by
          simp only [bytesCompare, byteCompare_eq a a rfl]
        rw [he, ih bs]
        constructor
        · exact fun hc => List.Lex.cons hc
        · intro hc
          cases hc with
          | cons hc => exact hc
          | rel hr => exact absurd hr (lt_irrefl a)
      · have he : bytesCompare (a :: as) (b :: bs) = .gt := by
          simp only [bytesCompare, byteCompare_gt a b h]
        rw [he]
        constructor
        · intro hc; exact absurd hc (by decide)
        · intro hc
          cases hc with
          | cons hc => exact absurd h (lt_irrefl a)
          | rel hr => exact absurd hr (by omega)

/-- Lexicographic byte comparison is antisymmetric under argument swap. -/
theorem bytesCompare_swap : ∀ x y : List Nat,
    bytesCompare y x = (bytesCompare x y).swap := by
  intro x
  induction x with
  | nil =>
    intro y
    cases y <;> rfl
  | cons a as ih =>
    intro y
    cases y with
    | nil => rfl
    | cons b bs =>
      rcases Nat.lt_trichotomy a b with h | h | h
      · simp only [bytesCompare, byteCompare_lt a b h, byteCompare_gt b a h,
          Ordering.swap]
      · subst h
        simp only [bytesCompare, byteCompare_eq a a rfl]
        exact ih bs
      · simp only [bytesCompare, byteCompare_gt a b h, byteCompare_lt b a h,
          Ordering.swap]

/-- Lexicographic byte comparison returns `gt` exactly on the reversed
lexicographic strict order. -/
theorem bytesCompare_gt_iff (x y : List Nat) :
    bytesCompare x y = .gt ↔ List.Lex (· < ·) y x := by
  rw [← bytesCompare_lt_iff y x, bytesCompare_swap y x]
  rcases h : bytesCompare y x <;> decide

/-- `RawString` values are equal exactly when their byte contents are. -/
theorem RawString_ext_iff (a b : RawString) : a = b ↔ a.bytes = b.bytes := by
  cases a
  cases b
  simp

/-- The bytes stored by `from_bytes` are the given bytes. -/
theorem RawString_from_bytes_val (b : List Nat) :
    (RawString.from_bytes b).bytes = b := rfl

/-- C1: `to_utf8_checked` succeeds if and only if the bytes are valid UTF-8;
on failure the error carries the original bytes and the offset of the first
byte at which validity fails (the longest valid prefix ends there, and no
longer prefix is valid); for `[0xFF, 0xFE]` it fails with offset 0, and for
the empty sequence it succeeds with the empty string. -/
theorem C1_checked_exact (b : List Nat) :
    ((∃ s, (RawString.from_bytes b).to_utf8_checked = .ok s) ↔ Utf8Valid b) ∧
    (∀ err, (RawString.from_bytes b).to_utf8_checked = .error err →
      err.bytes = b ∧
      err.valid_up_to < b.length ∧
      Utf8Valid (b.take err.valid_up_to) ∧
      ∀ m, err.valid_up_to < m → ¬ Utf8Valid (b.take m)) ∧
    (RawString.from_bytes [0xFF, 0xFE]).to_utf8_checked =
      .error ⟨[0xFF, 0xFE], 0⟩ ∧
    (RawString.from_bytes []).to_utf8_checked = .ok [] := by
  refine ⟨⟨?_, ?_⟩, ?_, by decide, by decide⟩
  · rintro ⟨s, hs⟩
    unfold RawString.to_utf8_checked stringFromUtf8 at hs
    simp only [RawString_from_bytes_val] at hs
    cases h : utf8Decode b with
    | ok cs => exact (utf8Decode_ok_iff b).mp ⟨cs, h⟩
    | error e => simp only [h, reduceCtorEq] at hs
  · intro hv
    obtain ⟨cs, hok⟩ := (utf8Decode_ok_iff b).mpr hv
    refine ⟨b, ?_⟩
    unfold RawString.to_utf8_checked stringFromUtf8
    simp only [RawString_from_bytes_val]
    rw [hok]
  · intro err herr
    unfold RawString.to_utf8_checked stringFromUtf8 at herr
    simp only [RawString_from_bytes_val] at herr
    cases h : utf8Decode b with
    | ok cs => simp only [h, reduceCtorEq] at herr
    | error e =>
      simp only [h, Except.error.injEq] at herr
      subst herr
      obtain ⟨h1, h2, h3⟩ := utf8Decode_error_spec b e h
      exact ⟨rfl, h1, h2, h3⟩

/-- Witness for C1 at the concrete input `[0xFF, 0xFE]`. -/
theorem C1_checked_exact_witness :
    Utf8Valid ([0xFF, 0xFE].take 0) ∧ ¬ Utf8Valid ([0xFF, 0xFE].take 2) :=
  ⟨((C1_checked_exact [0xFF, 0xFE]).2.1 ⟨[0xFF, 0xFE], 0⟩ (by decide)).2.2.1,
   ((C1_checked_exact [0xFF, 0xFE]).2.1 ⟨[0xFF, 0xFE], 0⟩
     (by decide)).2.2.2 2 (by decide)⟩

/-- C2 counterexample: `[0xFF, 0xFE]` is a single maximal run of invalid
bytes, so "one replacement marker per maximal invalid byte run" predicts
exactly one marker `[0xFFFD]`; the code substitutes one marker per maximal
subpart of each ill-formed subsequence, which is one marker per byte here,
producing two. -/
theorem C2_counterexample :
    (RawString.from_bytes [0xFF, 0xFE]).to_utf8_lossy =
      Cow.owned (utf8EncodeList [0xFFFD, 0xFFFD]) ∧
    utf8LossyDecode [0xFF, 0xFE] = [0xFFFD, 0xFFFD] ∧
    utf8LossyDecode [0xFF, 0xFE] ≠ [0xFFFD] :=
  ⟨by decide, by decide, by decide⟩

/-- C2 (amended): `to_utf8_lossy` never fails and returns only valid text
plus replacement markers, one marker per maximal subpart of each ill-formed
subsequence; every isolated byte `0x80..=0xFF` becomes one marker, and
`[0x68, 0xFF, 0x69]` becomes "h", one marker, "i". -/
theorem C2_lossy_total (b : List Nat) :
    ((RawString.from_bytes b).to_utf8_lossy = Cow.borrowed b ∨
      (RawString.from_bytes b).to_utf8_lossy =
        Cow.owned (utf8EncodeList (utf8LossyDecode b))) ∧
    AllScalar (utf8LossyDecode b) ∧
    Utf8Valid (utf8EncodeList (utf8LossyDecode b)) ∧
    (∀ x, 0x80 ≤ x → x ≤ 0xFF → utf8LossyDecode [x] = [0xFFFD]) ∧
    utf8LossyDecode [0x68, 0xFF, 0x69] = [0x68, 0xFFFD, 0x69] := by
  refine ⟨?_, utf8LossyAux_scalar _ _, ⟨_, utf8LossyAux_scalar _ _, rfl⟩,
    fun x h1 _ => utf8LossyDecode_single x h1, by decide⟩
  unfold RawString.to_utf8_lossy stringFromUtf8Lossy
  simp only [RawString_from_bytes_val]
  cases h : utf8Decode b with
  | ok cs => simp only [h]; exact Or.inl trivial
  | error e => simp only [h]; exact Or.inr trivial

/-- Witness for C2 (amended) at the concrete input `[0xFF]`. -/
theorem C2_lossy_total_witness : utf8LossyDecode [0xFF] = [0xFFFD] :=
  (C2_lossy_total []).2.2.2.1 0xFF (by decide) (by decide)

/-- C3: constructing a `RawString` from a valid text string and
checked-converting back yields that string. -/
theorem C3_roundtrip (s : List Nat) (h : Utf8Valid s) :
    (RawString.fromString s).to_utf8_checked = .ok s := by
  obtain ⟨cs, hok⟩ := (utf8Decode_ok_iff s).mpr h
  show stringFromUtf8 s = .ok s
  unfold stringFromUtf8
  rw [hok]

/-- Witness for C3 at the concrete string "hi". -/
theorem C3_roundtrip_witness :
    (RawString.fromString [0x68, 0x69]).to_utf8_checked = .ok [0x68, 0x69] :=
  C3_roundtrip [0x68, 0x69] ⟨[0x68, 0x69], by decide, by decide⟩

/-- C4: on valid bytes, `to_utf8_lossy` returns the borrowed variant holding
exactly the original bytes — whose text re-encodes to those bytes, i.e. it is
precisely what `to_utf8_checked` produces. -/
theorem C4_lossy_valid (s : RawString) (h : s.is_utf8 = true) :
    s.to_utf8_lossy = Cow.borrowed s.bytes ∧
    utf8EncodeList (utf8LossyDecode s.bytes) = s.bytes ∧
    s.to_utf8_checked = .ok s.bytes := by
  have hv : Utf8Valid s.bytes := (RawStr_is_utf8_iff s.as_ref).mp h
  obtain ⟨cs, hok⟩ := (utf8Decode_ok_iff s.bytes).mpr hv
  have hlossy : utf8LossyDecode s.bytes = cs :=
    utf8LossyAux_of_ok s.bytes.length s.bytes 0 cs hok
  obtain ⟨hsc, henc⟩ := utf8DecodeAux_ok s.bytes.length s.bytes 0 cs hok
  refine ⟨?_, by rw [hlossy, henc], ?_⟩
  · show stringFromUtf8Lossy s.bytes = Cow.borrowed s.bytes
    unfold stringFromUtf8Lossy
    rw [hok]
  · show stringFromUtf8 s.bytes = .ok s.bytes
    unfold stringFromUtf8
    rw [hok]

/-- Witness for C4 at the concrete input "hi". -/
theorem C4_lossy_valid_witness :
    (RawString.from_bytes [0x68, 0x69]).to_utf8_lossy =
      Cow.borrowed [0x68, 0x69] :=
  (C4_lossy_valid (RawString.from_bytes [0x68, 0x69]) (by decide)).1

/-- C5: the unchecked conversion demands its validity precondition (the
embedding of the `unsafe` marker) and, under it, returns exactly the string
the checked conversion returns. -/
theorem C5_unchecked_gated (s : RawString) (h : Utf8Valid s.bytes) :
    s.to_utf8_checked = .ok (s.to_utf8_unchecked h) := by
  obtain ⟨cs, hok⟩ := (utf8Decode_ok_iff s.bytes).mpr h
  show stringFromUtf8 s.bytes = .ok s.bytes
  unfold stringFromUtf8
  rw [hok]

/-- Witness for C5 at the concrete input "h". -/
theorem C5_unchecked_gated_witness :
    (RawString.from_bytes [0x68]).to_utf8_checked =
      .ok ((RawString.from_bytes [0x68]).to_utf8_unchecked
        ⟨[0x68], by decide, by decide⟩) :=
  C5_unchecked_gated (RawString.from_bytes [0x68])
    ⟨[0x68], by decide, by decide⟩

/-- C6: derived equality holds exactly on equal byte contents, and the
derived ordering is unsigned lexicographic byte comparison, regardless of
text validity. -/
theorem C6_eq_ord (a b : RawString) :
    (RawString.beq a b = true ↔ a.bytes = b.bytes) ∧
    (a = b ↔ a.bytes = b.bytes) ∧
    (RawString.cmp a b = .eq ↔ a.bytes = b.bytes) ∧
    (RawString.cmp a b = .lt ↔ List.Lex (· < ·) a.bytes b.bytes) ∧
    (RawString.cmp a b = .gt ↔ List.Lex (· < ·) b.bytes a.bytes) := by
  refine ⟨?_, RawString_ext_iff a b, bytesCompare_eq_iff a.bytes b.bytes,
    bytesCompare_lt_iff a.bytes b.bytes, bytesCompare_gt_iff a.bytes b.bytes⟩
  unfold RawString.beq
  exact beq_iff_eq

/-- C7: Debug and Display rendering are total functions of the bytes (they
cannot fail or panic) and produce non-empty output for non-empty input. -/
theorem C7_formatting (b : List Nat) (h : b ≠ []) :
    (RawString.from_bytes b).debugText ≠ [] ∧
    (RawString.from_bytes b).displayText ≠ [] := by
  constructor
  · show (0x22 :: (escapeList (utf8LossyDecode b) ++ [0x22])) ≠ []
    exact List.cons_ne_nil _ _
  · show utf8LossyDecode b ≠ []
    cases b with
    | nil => exact absurd rfl h
    | cons b0 rest => exact utf8LossyAux_ne_nil rest.length b0 rest

/-- Witness for C7 at the concrete invalid input `[0xFF]`. -/
theorem C7_formatting_witness :
    (RawString.from_bytes [0xFF]).debugText ≠ [] ∧
    (RawString.from_bytes [0xFF]).displayText ≠ [] :=
  C7_formatting [0xFF] (by decide)

/-- C8: `new` holds the empty byte sequence (it is `from` of the empty
vector), and `from` / `from_bytes` are infallible and store exactly the
given bytes, unchanged and unchecked. -/
theorem C8_constructors (b : List Nat) :
    RawString.new.bytes = [] ∧
    RawString.new = RawString.«from» [] ∧
    (RawString.«from» b).bytes = b ∧
    (RawString.from_bytes b).bytes = b :=
  ⟨rfl, rfl, rfl, rfl⟩

/-- C9: the `TryFrom<RawString>` conversion to `String` returns exactly the
result of `to_utf8_checked` on every value. -/
theorem C9_tryfrom_eq_checked (s : RawString) :
    stringTryFrom s = s.to_utf8_checked := rfl

/-- C10: the `&self` operations `is_utf8` and `to_utf8_lossy` leave the
receiver's bytes unchanged, so checked conversion after a lossy inspection
still sees the original data. -/
theorem C10_borrowing_calls (s : RawString) :
    (s.is_utf8_call).2.bytes = s.bytes ∧
    (s.to_utf8_lossy_call).2.bytes = s.bytes ∧
    ((s.to_utf8_lossy_call).2).to_utf8_checked = s.to_utf8_checked ∧
    ((s.is_utf8_call).2).to_utf8_lossy = s.to_utf8_lossy ∧
    ((s.to_utf8_lossy_call).2).is_utf8_call.1 = s.is_utf8 :=
  ⟨rfl, rfl, rfl, rfl, rfl⟩
